import Mathlib

/-!
Verification of the incremental git-repository indexing engine.

The definitions below are a shallow embedding of the Rust sources:
- `src/git.rs`: `GitError`, `GitService::get_current_commit_hash_from_rev`,
  `GitService::diff_commits` (unified-diff translation to `DiffAction`s);
- `src/actor.rs`: `get_dir_name_from_url`, `fetch_repository`,
  `get_commit_hash_from_head`, `diff_commits` (name-only), and
  `IndexerActor::handle`.

External subprocess invocations are modelled by passing their observable
results (`CmdOutput`, an exit-status flag plus captured stdout) as inputs;
a spawn failure is an `Except.error`.  A Rust `panic!` arising from
`.unwrap()` is modelled explicitly (`RunOutcome.panicked`, or `none` for
the diff translation), never silently erased.
-/

/-- Models Rust `str::trim` as used on `git rev-parse` output. -/
def rustTrim (s : String) : String :=
  String.mk (((s.data.dropWhile Char.isWhitespace).reverse.dropWhile Char.isWhitespace).reverse)

/-- Models Rust `str::lines` as used on `git diff --name-only` output:
split on a newline, dropping one trailing empty segment and any
carriage return left at the end of a line. -/
def rustLines (s : String) : List String :=
  let parts := s.splitOn "\n"
  let parts := match parts.getLast? with
    | some "" => parts.dropLast
    | _ => parts
  parts.map fun l => if l.endsWith "\r" then l.dropRight 1 else l

/-- The opening curly brace character. -/
def lbrace : Char := Char.ofNat 123

/-- The closing curly brace character. -/
def rbrace : Char := Char.ofNat 125

/-- JSON values, modelling `serde_json::Value` as used by
`GitService::diff_commits` (numbers are kept as raw text since the
source only ever reads string fields). -/
inductive JValue where
  | jnull
  | jbool (b : Bool)
  | jnum (raw : String)
  | jstr (s : String)
  | jarr (elems : List JValue)
  | jobj (fields : List (String × JValue))

def skipWs : List Char → List Char
  | [] => []
  | c :: cs => if c = ' ' ∨ c = '\n' ∨ c = '\t' ∨ c = '\r' then skipWs cs else c :: cs

/-- Parse the remainder of a JSON string literal (the opening quote has
already been consumed), handling the simple escape sequences. -/
def parseJStr : Nat → List Char → Option (String × List Char)
  | 0, _ => none
  | _ + 1, [] => none
  | fuel + 1, c :: cs =>
    if c = '"' then some ("", cs)
    else if c = '\\' then
      match cs with
      | [] => none
      | e :: cs2 =>
        let dec : Option Char :=
          if e = '"' then some '"'
          else if e = '\\' then some '\\'
          else if e = '/' then some '/'
          else if e = 'n' then some '\n'
          else if e = 't' then some '\t'
          else if e = 'r' then some '\r'
          else if e = 'b' then some (Char.ofNat 8)
          else if e = 'f' then some (Char.ofNat 12)
          else none
        match dec with
        | none => none
        | some d => (parseJStr fuel cs2).map fun p => (String.mk (d :: p.1.data), p.2)
    else (parseJStr fuel cs).map fun p => (String.mk (c :: p.1.data), p.2)

def expectChars : List Char → List Char → Option (List Char)
  | [], cs => some cs
  | _ :: _, [] => none
  | e :: es, c :: cs => if c = e then expectChars es cs else none

def isNumChar (c : Char) : Bool :=
  c.isDigit || c = '-' || c = '+' || c = '.' || c = 'e' || c = 'E'

mutual

/-- Recursive-descent JSON parser, modelling `serde_json::from_str` on
the one-record-per-line registry format.  The fuel argument bounds the
recursion depth; `jsonFromStr` supplies enough for any input it is
called on. -/
def parseValue : Nat → List Char → Option (JValue × List Char)
  | 0, _ => none
  | fuel + 1, cs =>
    match skipWs cs with
    | [] => none
    | c :: cs2 =>
      if c = '"' then
        (parseJStr (fuel + 1) cs2).map fun p => (JValue.jstr p.1, p.2)
      else if c = lbrace then
        match skipWs cs2 with
        | [] => none
        | d :: cs3 =>
          if d = rbrace then some (JValue.jobj [], cs3)
          else (parseMembers fuel (d :: cs3)).map fun p => (JValue.jobj p.1, p.2)
      else if c = '[' then
        match skipWs cs2 with
        | [] => none
        | d :: cs3 =>
          if d = ']' then some (JValue.jarr [], cs3)
          else (parseElements fuel (d :: cs3)).map fun p => (JValue.jarr p.1, p.2)
      else if c = 't' then (expectChars ['r', 'u', 'e'] cs2).map fun r => (JValue.jbool true, r)
      else if c = 'f' then (expectChars ['a', 'l', 's', 'e'] cs2).map fun r => (JValue.jbool false, r)
      else if c = 'n' then (expectChars ['u', 'l', 'l'] cs2).map fun r => (JValue.jnull, r)
      else if c.isDigit || c = '-' then
        let sp := (c :: cs2).span isNumChar
        some (JValue.jnum (String.mk sp.1), sp.2)
      else none

/-- Parse the members of a JSON object, positioned at the first key. -/
def parseMembers : Nat → List Char → Option (List (String × JValue) × List Char)
  | 0, _ => none
  | fuel + 1, cs =>
    match skipWs cs with
    | [] => none
    | c :: cs2 =>
      if c = '"' then
        match parseJStr (fuel + 1) cs2 with
        | none => none
        | some (key, rest1) =>
          match skipWs rest1 with
          | ':' :: rest2 =>
            match parseValue fuel rest2 with
            | none => none
            | some (v, rest3) =>
              match skipWs rest3 with
              | [] => none
              | ',' :: rest4 => (parseMembers fuel rest4).map fun p => ((key, v) :: p.1, p.2)
              | d :: rest4 => if d = rbrace then some ([(key, v)], rest4) else none
          | _ => none
      else none

/-- Parse the elements of a JSON array, positioned at the first element. -/
def parseElements : Nat → List Char → Option (List JValue × List Char)
  | 0, _ => none
  | fuel + 1, cs =>
    match parseValue fuel cs with
    | none => none
    | some (v, rest1) =>
      match skipWs rest1 with
      | ',' :: rest2 => (parseElements fuel rest2).map fun p => (v :: p.1, p.2)
      | ']' :: rest2 => some ([v], rest2)
      | _ => none

end

/-- Models `serde_json::from_str::<Value>`: the whole input, up to
surrounding whitespace, must parse as one JSON value. -/
def jsonFromStr (s : String) : Option JValue :=
  match parseValue (s.data.length + 2) s.data with
  | none => none
  | some (v, rest) => if skipWs rest = [] then some v else none

/-- Field access in an object; a later duplicate key wins, as in
`serde_json`'s map construction. -/
def jGetField (key : String) : List (String × JValue) → Option JValue
  | [] => none
  | (k, v) :: rest =>
    match jGetField key rest with
    | some v2 => some v2
    | none => if k = key then some v else none

/-- Models `value["name"]`-style indexing (`serde_json::Value::index`):
a missing field or a non-object yields `Null`. -/
def jIndexStr (v : JValue) (key : String) : JValue :=
  match v with
  | .jobj fields => (jGetField key fields).getD .jnull
  | _ => .jnull

/-- Models `Value::as_str`. -/
def jAsStr : JValue → Option String
  | .jstr s => some s
  | _ => none

/-- The record-identity extraction done on every changed diff line in
`GitService::diff_commits`: `serde_json::from_str(raw)` then
`value["name"].as_str()`.  `none` means the source's `.unwrap()` calls
would panic on this line. -/
def recordName (raw : String) : Option String :=
  (jsonFromStr raw).bind fun v => jAsStr (jIndexStr v "name")

/-- A line of a parsed unified-diff hunk, as produced by
`gitpatch::Line`. -/
inductive Line where
  | add (raw : String)
  | remove (raw : String)
  | context (raw : String)
deriving DecidableEq

/-- A hunk of a parsed patch (`gitpatch::Hunk`; only the lines matter
to the translation). -/
structure Hunk where
  lines : List Line
deriving DecidableEq

/-- One per-file patch (`gitpatch::Patch`). -/
structure Patch where
  hunks : List Hunk
deriving DecidableEq

/-- `DiffAction` from `src/git.rs`. -/
inductive DiffAction where
  | Add (name : String)
  | Update (name : String)
  | Remove (name : String)
deriving DecidableEq

/-- The `flat_map`/`flat_map` pipeline of `GitService::diff_commits`:
all hunk lines of all patches, in order. -/
def allLines (patches : List Patch) : List Line :=
  patches.flatMap fun p => p.hunks.flatMap fun h => h.lines

/-- The `filter_map` body of `GitService::diff_commits`, applied to the
flattened line list.  `none` models the panic of the unwrapped JSON
parse on a changed line; context lines are skipped without parsing. -/
def translateLines : List Line → Option (List DiffAction)
  | [] => some []
  | Line.add raw :: rest =>
    match recordName raw with
    | none => none
    | some name => (translateLines rest).map fun acts => DiffAction.Add name :: acts
  | Line.remove raw :: rest =>
    match recordName raw with
    | none => none
    | some name => (translateLines rest).map fun acts => DiffAction.Remove name :: acts
  | Line.context _ :: rest => translateLines rest

/-- The translation step of `GitService::diff_commits`, from parsed
patches to the collected `HashSet<DiffAction>` (a `Finset` here);
`none` models a record-parse panic. -/
def diff_commits_actions (patches : List Patch) : Option (Finset DiffAction) :=
  (translateLines (allLines patches)).map List.toFinset

/-- Specification-side view of one diff line: an added line becomes
`Add` of its record name, a removed line becomes `Remove`, context
lines produce nothing. -/
def lineEvent : Line → Option DiffAction
  | .add raw => (recordName raw).map DiffAction.Add
  | .remove raw => (recordName raw).map DiffAction.Remove
  | .context _ => none

/-- The raw texts of the changed (added or removed) lines, in order. -/
def changedRaws (ls : List Line) : List String :=
  ls.filterMap fun l =>
    match l with
    | .add raw => some raw
    | .remove raw => some raw
    | .context _ => none

/-- `GitError` from `src/git.rs` (note: there is no record-parse
variant). -/
inductive GitError where
  | CommandError (msg : String)
  | DiffParseError (msg : String)
deriving DecidableEq

/-- The observable result of a finished subprocess: whether its exit
status was a success, and its captured stdout. -/
structure CmdOutput where
  success : Bool
  stdout : String
deriving DecidableEq

/-- `GitService::get_current_commit_hash_from_rev` from `src/git.rs`,
over the observed output of `git rev-parse <rev>`; an `Except.error`
input models a spawn failure. -/
def get_current_commit_hash_from_rev (out : Except String CmdOutput) :
    Except GitError (Option String) :=
  match out with
  | .error e => .error (GitError.CommandError e)
  | .ok o => if o.success then .ok (some (rustTrim o.stdout)) else .ok none

/-- `get_dir_name_from_url`'s `rsplit('/').next()`: the substring after
the last `'/'` (the whole string when there is none). -/
def lastSegment (s : String) : String :=
  String.mk ((s.data.reverse.takeWhile fun c => c ≠ '/').reverse)

/-- Rust `str::strip_suffix`, character-wise. -/
def stripSuffix (s sfx : String) : Option String :=
  if s.data.drop (s.data.length - sfx.data.length) = sfx.data then
    some (String.mk (s.data.take (s.data.length - sfx.data.length)))
  else none

/-- `get_dir_name_from_url` from `src/actor.rs`. -/
def get_dir_name_from_url (git_url : String) : String :=
  match stripSuffix (lastSegment git_url) ".git" with
  | some s => s
  | none => git_url

/-- `IndexerActorMessage` from `src/actor.rs`. -/
inductive IndexerActorMessage where
  | Index
  | AutoIndex
deriving DecidableEq

/-- `IndexerActorState` from `src/actor.rs` (`Instant`s and the timer
`Duration` are abstracted as naturals; the repository path as a
string). -/
structure IndexerActorState where
  git_url : String
  repository : String
  last_indexed : Option Nat
  last_commit_hash : Option String
  timer_interval : Nat
deriving DecidableEq

/-- The observable results of the three subprocess invocations a single
`handle` run can make: `git fetch --all` (spawn error or exit-status
success flag), `git rev-parse FETCH_HEAD`, and
`git diff --name-only old new` for whichever pair is requested. -/
structure RunEnv where
  fetchOut : Except String Bool
  revOut : Except String CmdOutput
  diffOut : String → String → Except String CmdOutput

/-- `fetch_repository` from `src/actor.rs`. -/
def fetch_repository (out : Except String Bool) : Except String Unit :=
  match out with
  | .error e => .error e
  | .ok st => if st then .ok () else .error "Git fetch failed"

/-- `get_commit_hash_from_head` from `src/actor.rs`: `Ok(Some(trimmed
stdout))` on exit success, `Ok(None)` on nonzero exit, `Err` only on a
spawn failure. -/
def get_commit_hash_from_head (out : Except String CmdOutput) :
    Except String (Option String) :=
  match out with
  | .error e => .error e
  | .ok o => if o.success then .ok (some (rustTrim o.stdout)) else .ok none

/-- `diff_commits` from `src/actor.rs` (the `--name-only` variant used
by the actor). -/
def diff_commits (out : Except String CmdOutput) : Except String (List String) :=
  match out with
  | .error e => .error e
  | .ok o => if o.success then .ok (rustLines o.stdout) else .error "Git diff failed"

/-- Whether `handle` re-arms the auto-index timer for this message
(`matches!(message, IndexerActorMessage::AutoIndex)`). -/
def rearms : IndexerActorMessage → Bool
  | .AutoIndex => true
  | .Index => false

/-- The outcome of one `IndexerActor::handle` run: either a Rust panic
(from one of the `.unwrap()` calls) with the state as it stood at that
point, or normal completion with the final state, the list of emitted
changed-file events, and whether the auto-index timer was re-armed. -/
inductive RunOutcome where
  | panicked (state : IndexerActorState)
  | completed (state : IndexerActorState) (emitted : List String) (rearmed : Bool)
deriving DecidableEq

/-- `IndexerActor::handle` from `src/actor.rs`.  The run sets
`last_indexed`, unwraps the fetch, unwraps the commit-hash resolution,
branches on `(last_commit_hash, current_commit_hash)` — only the
two-distinct-hashes arm runs (and unwraps) the diff and emits its
files — and finally assigns `last_commit_hash := current_commit_hash`
(line 267). -/
def handle (message : IndexerActorMessage) (env : RunEnv) (now : Nat)
    (state : IndexerActorState) : RunOutcome :=
  let state1 : IndexerActorState := { state with last_indexed := some now }
  match fetch_repository env.fetchOut with
  | .error _ => .panicked state1
  | .ok _ =>
    match get_commit_hash_from_head env.revOut with
    | .error _ => .panicked state1
    | .ok current_commit_hash =>
      let emitted : Option (List String) :=
        match state1.last_commit_hash, current_commit_hash with
        | none, none => some []
        | none, some _ => some []
        | some _, none => some []
        | some old_commit, some current_commit =>
          if old_commit ≠ current_commit then
            match diff_commits (env.diffOut old_commit current_commit) with
            | .error _ => none
            | .ok changed_files => some changed_files
          else some []
      match emitted with
      | none => .panicked state1
      | some ev =>
        .completed { state1 with last_commit_hash := current_commit_hash } ev (rearms message)

/-- Modelled from the spec: the schedule-management interface
(`StartAutoIndex`/`StopAutoIndex` and an interval-carrying `AutoIndex`)
is not present under `src/` — the source actor only has bare
`Index`/`AutoIndex` with unconditional re-arming.  Per spec §3/§4.4 the
source design validates a delivered `AutoIndex` by comparing the
interval value only (no epoch), which is what is modelled here. -/
inductive ScheduleMsg where
  | StartAutoIndex (interval : Nat)
  | StopAutoIndex
  | AutoIndex (interval : Nat)
deriving DecidableEq

/-- Modelled from the spec: the schedule state is the currently active
interval, or `none` when no schedule is running. -/
structure ScheduleState where
  schedule : Option Nat
deriving DecidableEq

/-- Modelled from the spec: the result of handling one schedule
message — the next schedule state, whether an `Index` run is
dispatched, and the deferred messages armed by this step. -/
structure ScheduleStep where
  state : ScheduleState
  dispatchesIndex : Bool
  armed : List ScheduleMsg
deriving DecidableEq

/-- Modelled from the spec: `StartAutoIndex` records the interval and
arms a deferred `AutoIndex`; `StopAutoIndex` clears the schedule; a
delivered `AutoIndex` dispatches an `Index` and re-arms when its
interval equals the current schedule's interval (value comparison
only), and is dropped otherwise. -/
def scheduleHandle (s : ScheduleState) : ScheduleMsg → ScheduleStep
  | .StartAutoIndex i => ⟨⟨some i⟩, false, [.AutoIndex i]⟩
  | .StopAutoIndex => ⟨⟨none⟩, false, []⟩
  | .AutoIndex i =>
    if s.schedule = some i then ⟨s, true, [.AutoIndex i]⟩ else ⟨s, false, []⟩

/-- Concrete first-run actor state (empty checkpoint). -/
def stFresh : IndexerActorState := ⟨"u", "r", none, none, 9⟩

/-- Concrete actor state whose checkpoint is `"old"`. -/
def stOld : IndexerActorState := ⟨"u", "r", none, some "old", 9⟩

/-- Environment where the fetch exits nonzero. -/
def envFetchFail : RunEnv := ⟨.ok false, .ok ⟨true, "bbb"⟩, fun _ _ => .ok ⟨true, ""⟩⟩

/-- Environment where rev-parse cannot be spawned. -/
def envRevFail : RunEnv := ⟨.ok true, .error "io", fun _ _ => .ok ⟨true, ""⟩⟩

/-- Environment where fetch and rev-parse succeed (head `"new"`) but
the diff subprocess fails to spawn. -/
def envDiffFail : RunEnv := ⟨.ok true, .ok ⟨true, "new"⟩, fun _ _ => .error "diff io error"⟩

/-- Environment of a successful run that resolves head `"h1"`; the diff
oracle fails, so any run that consulted it would panic. -/
def envFirst : RunEnv := ⟨.ok true, .ok ⟨true, "h1\n"⟩, fun _ _ => .error "never"⟩

/-- The two-line example diff: one added `\x7b"name":"foo"\x7d` line and one
removed `\x7b"name":"bar"\x7d` line. -/
def examplePatch : Patch :=
  ⟨[⟨[Line.add "\x7b\"name\":\"foo\"\x7d", Line.remove "\x7b\"name\":\"bar\"\x7d"]⟩]⟩

/-- A removed and an added line carrying the same record key `"k"`. -/
def pairPatch : Patch :=
  ⟨[⟨[Line.remove "\x7b\"name\":\"k\"\x7d", Line.add "\x7b\"name\":\"k\"\x7d"]⟩]⟩

/-- A patch whose single added line is not valid JSON. -/
def badPatch : Patch := ⟨[⟨[Line.add "not-json"]⟩]⟩

theorem changedRaws_cons_add (raw : String) (rest : List Line) :
    changedRaws (Line.add raw :: rest) = raw :: changedRaws rest := rfl

theorem changedRaws_cons_remove (raw : String) (rest : List Line) :
    changedRaws (Line.remove raw :: rest) = raw :: changedRaws rest := rfl

theorem changedRaws_cons_context (raw : String) (rest : List Line) :
    changedRaws (Line.context raw :: rest) = changedRaws rest := rfl

theorem translateLines_all_parse (ls : List Line)
    (h : ∀ raw ∈ changedRaws ls, (recordName raw).isSome) :
    translateLines ls = some (ls.filterMap lineEvent) := by
  induction ls with
  | nil => rfl
  | cons l rest ih =>
    cases l with
    | add raw =>
      have hr : (recordName raw).isSome := h raw (by rw [changedRaws_cons_add]; exact List.mem_cons_self _ _)
      obtain ⟨n, hn⟩ := Option.isSome_iff_exists.mp hr
      have hrest : ∀ r ∈ changedRaws rest, (recordName r).isSome := fun r hrr =>
        h r (by rw [changedRaws_cons_add]; exact List.mem_cons_of_mem _ hrr)
      simp [translateLines, hn, ih hrest, List.filterMap_cons, lineEvent]
    | remove raw =>
      have hr : (recordName raw).isSome := h raw (by rw [changedRaws_cons_remove]; exact List.mem_cons_self _ _)
      obtain ⟨n, hn⟩ := Option.isSome_iff_exists.mp hr
      have hrest : ∀ r ∈ changedRaws rest, (recordName r).isSome := fun r hrr =>
        h r (by rw [changedRaws_cons_remove]; exact List.mem_cons_of_mem _ hrr)
      simp [translateLines, hn, ih hrest, List.filterMap_cons, lineEvent]
    | context raw =>
      have hrest : ∀ r ∈ changedRaws rest, (recordName r).isSome := fun r hrr =>
        h r (by rw [changedRaws_cons_context]; exact hrr)
      simp [translateLines, ih hrest, List.filterMap_cons, lineEvent]

theorem translateLines_shape (ls : List Line) (acts : List DiffAction)
    (h : translateLines ls = some acts) :
    ∀ a ∈ acts, (∃ n, a = DiffAction.Add n) ∨ ∃ n, a = DiffAction.Remove n := by
  induction ls generalizing acts with
  | nil =>
    simp only [translateLines, Option.some.injEq] at h
    subst h; simp
  | cons l rest ih =>
    cases l with
    | add raw =>
      simp only [translateLines] at h
      cases hr : recordName raw with
      | none => rw [hr] at h; simp at h
      | some n =>
        rw [hr] at h
        cases ht : translateLines rest with
        | none => rw [ht] at h; simp at h
        | some acts0 =>
          rw [ht] at h
          simp only [Option.map_some', Option.some.injEq] at h
          subst h
          intro a ha
          rcases List.mem_cons.mp ha with rfl | ha
          · exact Or.inl ⟨n, rfl⟩
          · exact ih _ ht a ha
    | remove raw =>
      simp only [translateLines] at h
      cases hr : recordName raw with
      | none => rw [hr] at h; simp at h
      | some n =>
        rw [hr] at h
        cases ht : translateLines rest with
        | none => rw [ht] at h; simp at h
        | some acts0 =>
          rw [ht] at h
          simp only [Option.map_some', Option.some.injEq] at h
          subst h
          intro a ha
          rcases List.mem_cons.mp ha with rfl | ha
          · exact Or.inr ⟨n, rfl⟩
          · exact ih _ ht a ha
    | context raw =>
      simp only [translateLines] at h
      exact ih _ h

theorem translateLines_mem_add (ls : List Line) (acts : List DiffAction) (raw n : String)
    (hmem : Line.add raw ∈ ls) (hn : recordName raw = some n)
    (h : translateLines ls = some acts) :
    DiffAction.Add n ∈ acts := by
  induction ls generalizing acts with
  | nil => simp at hmem
  | cons l rest ih =>
    rcases List.mem_cons.mp hmem with hl | hl
    · rw [← hl] at h
      simp only [translateLines, hn] at h
      cases ht : translateLines rest with
      | none => rw [ht] at h; simp at h
      | some acts0 =>
        rw [ht] at h
        simp only [Option.map_some', Option.some.injEq] at h
        rw [← h]
        exact List.mem_cons_self _ _
    · cases l with
      | add raw2 =>
        simp only [translateLines] at h
        cases hr : recordName raw2 with
        | none => rw [hr] at h; simp at h
        | some n2 =>
          rw [hr] at h
          cases ht : translateLines rest with
          | none => rw [ht] at h; simp at h
          | some acts0 =>
            rw [ht] at h
            simp only [Option.map_some', Option.some.injEq] at h
            rw [← h]
            exact List.mem_cons_of_mem _ (ih _ hl ht)
      | remove raw2 =>
        simp only [translateLines] at h
        cases hr : recordName raw2 with
        | none => rw [hr] at h; simp at h
        | some n2 =>
          rw [hr] at h
          cases ht : translateLines rest with
          | none => rw [ht] at h; simp at h
          | some acts0 =>
            rw [ht] at h
            simp only [Option.map_some', Option.some.injEq] at h
            rw [← h]
            exact List.mem_cons_of_mem _ (ih _ hl ht)
      | context raw2 =>
        simp only [translateLines] at h
        exact ih _ hl h

theorem translateLines_mem_remove (ls : List Line) (acts : List DiffAction) (raw n : String)
    (hmem : Line.remove raw ∈ ls) (hn : recordName raw = some n)
    (h : translateLines ls = some acts) :
    DiffAction.Remove n ∈ acts := by
  induction ls generalizing acts with
  | nil => simp at hmem
  | cons l rest ih =>
    rcases List.mem_cons.mp hmem with hl | hl
    · rw [← hl] at h
      simp only [translateLines, hn] at h
      cases ht : translateLines rest with
      | none => rw [ht] at h; simp at h
      | some acts0 =>
        rw [ht] at h
        simp only [Option.map_some', Option.some.injEq] at h
        rw [← h]
        exact List.mem_cons_self _ _
    · cases l with
      | add raw2 =>
        simp only [translateLines] at h
        cases hr : recordName raw2 with
        | none => rw [hr] at h; simp at h
        | some n2 =>
          rw [hr] at h
          cases ht : translateLines rest with
          | none => rw [ht] at h; simp at h
          | some acts0 =>
            rw [ht] at h
            simp only [Option.map_some', Option.some.injEq] at h
            rw [← h]
            exact List.mem_cons_of_mem _ (ih _ hl ht)
      | remove raw2 =>
        simp only [translateLines] at h
        cases hr : recordName raw2 with
        | none => rw [hr] at h; simp at h
        | some n2 =>
          rw [hr] at h
          cases ht : translateLines rest with
          | none => rw [ht] at h; simp at h
          | some acts0 =>
            rw [ht] at h
            simp only [Option.map_some', Option.some.injEq] at h
            rw [← h]
            exact List.mem_cons_of_mem _ (ih _ hl ht)
      | context raw2 =>
        simp only [translateLines] at h
        exact ih _ hl h

theorem translateLines_bad (ls : List Line) (raw : String)
    (hmem : raw ∈ changedRaws ls) (hbad : recordName raw = none) :
    translateLines ls = none := by
  induction ls with
  | nil => simp [changedRaws] at hmem
  | cons l rest ih =>
    cases l with
    | add raw2 =>
      rw [changedRaws_cons_add] at hmem
      rcases List.mem_cons.mp hmem with hl | hl
      · rw [hl] at hbad
        simp [translateLines, hbad]
      · cases hr : recordName raw2 with
        | none => simp [translateLines, hr]
        | some n => simp [translateLines, hr, ih hl]
    | remove raw2 =>
      rw [changedRaws_cons_remove] at hmem
      rcases List.mem_cons.mp hmem with hl | hl
      · rw [hl] at hbad
        simp [translateLines, hbad]
      · cases hr : recordName raw2 with
        | none => simp [translateLines, hr]
        | some n => simp [translateLines, hr, ih hl]
    | context raw2 =>
      rw [changedRaws_cons_context] at hmem
      simp [translateLines, ih hmem]

/-- C4: for every parsed unified diff whose changed lines all parse as
JSON objects carrying a string `name` field, `GitService::diff_commits`
maps each added line to `Add name`, each removed line to `Remove name`,
ignores context lines, and collects the events into a set (deduplicating
identical key+kind events); on the two-line example diff adding
`\x7b"name":"foo"\x7d` and removing `\x7b"name":"bar"\x7d` this yields exactly
`\x7bAdd "foo", Remove "bar"\x7d` (see the witness). -/
theorem translate_maps_changed_lines (patches : List Patch)
    (h : ∀ raw ∈ changedRaws (allLines patches), (recordName raw).isSome) :
    diff_commits_actions patches = some ((allLines patches).filterMap lineEvent).toFinset := by
  unfold diff_commits_actions
  rw [translateLines_all_parse _ h]
  rfl

theorem translate_maps_changed_lines_witness :
    (∀ raw ∈ changedRaws (allLines [examplePatch]), (recordName raw).isSome) ∧
    diff_commits_actions [examplePatch] =
      some {DiffAction.Add "foo", DiffAction.Remove "bar"} := by
  refine ⟨by decide, ?_⟩
  rw [translate_maps_changed_lines [examplePatch] (by decide)]
  decide

/-- C5: the diff translation never produces an `Update` event; a paired
remove and add of the same key surface as two separate events
(`Remove key` and `Add key`), never as a merged `Update key`. -/
theorem translate_never_update (patches : List Patch) (S : Finset DiffAction)
    (h : diff_commits_actions patches = some S) :
    (∀ k, DiffAction.Update k ∉ S) ∧
    (∀ rawR rawA k, Line.remove rawR ∈ allLines patches → Line.add rawA ∈ allLines patches →
      recordName rawR = some k → recordName rawA = some k →
      DiffAction.Remove k ∈ S ∧ DiffAction.Add k ∈ S) := by
  obtain ⟨acts, hacts, hS⟩ :
      ∃ acts, translateLines (allLines patches) = some acts ∧ S = acts.toFinset := by
    unfold diff_commits_actions at h
    cases ht : translateLines (allLines patches) with
    | none => rw [ht] at h; simp at h
    | some acts =>
      rw [ht] at h
      simp only [Option.map_some', Option.some.injEq] at h
      exact ⟨acts, rfl, h.symm⟩
  subst hS
  constructor
  · intro k hk
    rcases translateLines_shape _ _ hacts _ (List.mem_toFinset.mp hk) with ⟨n, hn⟩ | ⟨n, hn⟩ <;>
      exact absurd hn (by simp)
  · intro rawR rawA k hR hA hkR hkA
    exact ⟨List.mem_toFinset.mpr (translateLines_mem_remove _ _ _ _ hR hkR hacts),
           List.mem_toFinset.mpr (translateLines_mem_add _ _ _ _ hA hkA hacts)⟩

theorem translate_never_update_witness :
    diff_commits_actions [pairPatch] = some {DiffAction.Remove "k", DiffAction.Add "k"} ∧
    DiffAction.Update "k" ∉ ({DiffAction.Remove "k", DiffAction.Add "k"} : Finset DiffAction) ∧
    DiffAction.Remove "k" ∈ ({DiffAction.Remove "k", DiffAction.Add "k"} : Finset DiffAction) ∧
    DiffAction.Add "k" ∈ ({DiffAction.Remove "k", DiffAction.Add "k"} : Finset DiffAction) := by
  have hd : diff_commits_actions [pairPatch] =
      some {DiffAction.Remove "k", DiffAction.Add "k"} := by decide
  have hpair := (translate_never_update [pairPatch] _ hd).2
    "\x7b\"name\":\"k\"\x7d" "\x7b\"name\":\"k\"\x7d" "k"
    (by decide) (by decide) (by decide) (by decide)
  exact ⟨hd, (translate_never_update [pairPatch] _ hd).1 "k", hpair.1, hpair.2⟩

/-- C6 counterexample: on a diff whose single added line is `"not-json"`,
the translation panics (modelled as `none`) instead of returning an
error value such as a record-parse error. -/
theorem record_parse_panics_cex : diff_commits_actions [badPatch] = none := by decide

/-- C6 (amended): when any changed line of the diff fails record parsing
(not a JSON object with a string `name` field), the translation of
`GitService::diff_commits` panics — the JSON parse and name-field
extraction are unwrapped, and `GitError` has no record-parse variant —
so the run aborts with the panic rather than an error value. -/
theorem record_parse_failure_aborts (patches : List Patch) (raw : String)
    (hmem : raw ∈ changedRaws (allLines patches))
    (hbad : recordName raw = none) :
    diff_commits_actions patches = none := by
  unfold diff_commits_actions
  rw [translateLines_bad _ _ hmem hbad]
  rfl

theorem record_parse_failure_aborts_witness :
    ("not-json" ∈ changedRaws (allLines [badPatch])) ∧
    recordName "not-json" = none ∧
    diff_commits_actions [badPatch] = none :=
  ⟨by decide, by decide,
    record_parse_failure_aborts [badPatch] "not-json" (by decide) (by decide)⟩

theorem handle_panicked_state (m : IndexerActorMessage) (env : RunEnv) (now : Nat)
    (st s2 : IndexerActorState)
    (hp : handle m env now st = RunOutcome.panicked s2) :
    s2 = { st with last_indexed := some now } := by
  cases hf : fetch_repository env.fetchOut with
  | error e =>
    simp only [handle, hf] at hp
    injection hp with h
    exact h.symm
  | ok u =>
    cases hg : get_commit_hash_from_head env.revOut with
    | error e =>
      simp only [handle, hf, hg] at hp
      injection hp with h
      exact h.symm
    | ok cur =>
      cases hck : st.last_commit_hash with
      | none =>
        cases cur with
        | none => simp [handle, hf, hg, hck] at hp
        | some c => simp [handle, hf, hg, hck] at hp
      | some o =>
        cases cur with
        | none => simp [handle, hf, hg, hck] at hp
        | some c =>
          by_cases heq : o = c
          · simp [handle, hf, hg, hck, heq] at hp
          · cases hd : diff_commits (env.diffOut o c) with
            | error e =>
              simp only [handle, hf, hg, hck, hd] at hp
              rw [if_pos heq] at hp
              injection hp with h
              exact h.symm
            | ok files => simp [handle, hf, hg, hck, heq, hd] at hp

theorem handle_completed_state (m : IndexerActorMessage) (env : RunEnv) (now : Nat)
    (st s : IndexerActorState) (ev : List String) (r : Bool) (cur : Option String)
    (hc : handle m env now st = RunOutcome.completed s ev r)
    (hrev : get_commit_hash_from_head env.revOut = .ok cur) :
    s = { st with last_indexed := some now, last_commit_hash := cur } := by
  cases hf : fetch_repository env.fetchOut with
  | error e => simp [handle, hf] at hc
  | ok u =>
    cases hck : st.last_commit_hash with
    | none =>
      cases cur with
      | none =>
        simp [handle, hf, hrev, hck] at hc
        rw [← hc.1]
      | some c =>
        simp [handle, hf, hrev, hck] at hc
        rw [← hc.1]
    | some o =>
      cases cur with
      | none =>
        simp [handle, hf, hrev, hck] at hc
        rw [← hc.1]
      | some c =>
        by_cases heq : o = c
        · simp [handle, hf, hrev, hck, heq] at hc
          rw [← hc.1]
        · cases hd : diff_commits (env.diffOut o c) with
          | error e => simp [handle, hf, hrev, hck, heq, hd] at hc
          | ok files =>
            simp [handle, hf, hrev, hck, heq, hd] at hc
            rw [← hc.1]

/-- C1: for every `Index` or `AutoIndex` run that fails after a
successful fetch but before the checkpoint update (the rev-parse or the
diff step panics via `.unwrap()`), the checkpoint field
`last_commit_hash` of the state at the panic equals its pre-run value:
the checkpoint never advances past events that were not emitted. -/
theorem checkpoint_preserved_on_failed_run (message : IndexerActorMessage) (env : RunEnv)
    (now : Nat) (state sPanic : IndexerActorState)
    (_hfetch : fetch_repository env.fetchOut = .ok ())
    (hfail : handle message env now state = RunOutcome.panicked sPanic) :
    sPanic.last_commit_hash = state.last_commit_hash := by
  rw [handle_panicked_state _ _ _ _ _ hfail]

theorem checkpoint_preserved_on_failed_run_witness :
    fetch_repository envDiffFail.fetchOut = .ok () ∧
    handle IndexerActorMessage.Index envDiffFail 4 stOld =
      RunOutcome.panicked ⟨"u", "r", some 4, some "old", 9⟩ ∧
    (⟨"u", "r", some 4, some "old", 9⟩ : IndexerActorState).last_commit_hash
      = stOld.last_commit_hash :=
  ⟨rfl, rfl, checkpoint_preserved_on_failed_run IndexerActorMessage.Index envDiffFail 4
    stOld _ rfl rfl⟩

/-- C2 (spec-modelled; bug acknowledged by spec §3/§9): with the
interval-value-only staleness check, after `StartAutoIndex 5` then
`StopAutoIndex` then `StartAutoIndex 5`, the deferred `AutoIndex 5`
message that the first `StartAutoIndex` armed still dispatches an
`Index` run (and re-arms) when delivered, instead of being silently
dropped as the claim requires. -/
theorem stale_autoindex_fires_after_restart :
    (scheduleHandle ⟨none⟩ (ScheduleMsg.StartAutoIndex 5)).armed = [ScheduleMsg.AutoIndex 5] ∧
    (scheduleHandle (scheduleHandle (scheduleHandle
        (scheduleHandle ⟨none⟩ (ScheduleMsg.StartAutoIndex 5)).state
        ScheduleMsg.StopAutoIndex).state
        (ScheduleMsg.StartAutoIndex 5)).state
        (ScheduleMsg.AutoIndex 5)).dispatchesIndex = true := by decide

/-- C3 counterexample: with `git fetch` exiting nonzero, the handler
panics (the fetch result is unwrapped) instead of logging and leaving
the state unchanged; note `last_indexed` was already updated. -/
theorem handler_panics_on_fetch_error_cex :
    handle IndexerActorMessage.Index envFetchFail 0 stOld =
      RunOutcome.panicked ⟨"u", "r", some 0, some "old", 9⟩ := rfl

/-- C3 (amended): when a repository-service operation of the run fails
(fetch, commit-hash resolution, or the diff when one is needed), the
handler panics — the error results are unwrapped, not logged — while
the checkpoint field `last_commit_hash` is left unchanged
(`last_indexed` has already been set for the run). -/
theorem handler_panics_on_service_error (message : IndexerActorMessage) (env : RunEnv)
    (now : Nat) (state : IndexerActorState)
    (h : (∃ e, fetch_repository env.fetchOut = .error e) ∨
         (fetch_repository env.fetchOut = .ok () ∧
          ∃ e, get_commit_hash_from_head env.revOut = .error e) ∨
         (fetch_repository env.fetchOut = .ok () ∧
          ∃ old cur, state.last_commit_hash = some old ∧
            get_commit_hash_from_head env.revOut = .ok (some cur) ∧ old ≠ cur ∧
            ∃ e, diff_commits (env.diffOut old cur) = .error e)) :
    handle message env now state = RunOutcome.panicked { state with last_indexed := some now } ∧
    ({ state with last_indexed := some now } : IndexerActorState).last_commit_hash
      = state.last_commit_hash := by
  refine ⟨?_, rfl⟩
  rcases h with ⟨e, hf⟩ | ⟨hf, e, hg⟩ | ⟨hf, old, cur, hck, hg, hne, e, hd⟩
  · simp [handle, hf]
  · simp [handle, hf, hg]
  · simp [handle, hf, hg, hck, hne, hd]

theorem handler_panics_on_service_error_witness :
    handle IndexerActorMessage.Index envRevFail 3 stOld =
      RunOutcome.panicked ⟨"u", "r", some 3, some "old", 9⟩ ∧
    (⟨"u", "r", some 3, some "old", 9⟩ : IndexerActorState).last_commit_hash
      = stOld.last_commit_hash :=
  handler_panics_on_service_error IndexerActorMessage.Index envRevFail 3 stOld
    (Or.inr (Or.inl ⟨rfl, "io", rfl⟩))

/-- C7: `GitService::get_current_commit_hash_from_rev` returns an absent
value (`Ok(None)`), not an error, when `git rev-parse` exits nonzero;
returns `Ok(Some(trimmed stdout))` when it exits successfully; and
errors exactly when the command could not be run at all. -/
theorem resolveCommit_absent_not_error (out : Except String CmdOutput) :
    (∀ o, out = .ok o → o.success = false →
      get_current_commit_hash_from_rev out = .ok none) ∧
    (∀ o, out = .ok o → o.success = true →
      get_current_commit_hash_from_rev out = .ok (some (rustTrim o.stdout))) ∧
    (∀ e, out = .error e →
      get_current_commit_hash_from_rev out = .error (GitError.CommandError e)) ∧
    (∀ gerr, get_current_commit_hash_from_rev out = .error gerr → ∃ e, out = .error e) := by
  refine ⟨?_, ?_, ?_, ?_⟩
  · rintro o rfl hs
    simp [get_current_commit_hash_from_rev, hs]
  · rintro o rfl hs
    simp [get_current_commit_hash_from_rev, hs]
  · rintro e rfl
    rfl
  · intro gerr hg
    cases out with
    | error e => exact ⟨e, rfl⟩
    | ok o =>
      simp only [get_current_commit_hash_from_rev] at hg
      cases hs : o.success <;> rw [hs] at hg <;> simp at hg

theorem resolveCommit_absent_not_error_witness :
    get_current_commit_hash_from_rev (.ok ⟨false, "fatal"⟩) = .ok none ∧
    get_current_commit_hash_from_rev (.ok ⟨true, "  abc12\n"⟩) = .ok (some "abc12") ∧
    get_current_commit_hash_from_rev (.error "spawn failed") =
      .error (GitError.CommandError "spawn failed") := by
  refine ⟨(resolveCommit_absent_not_error _).1 _ rfl rfl, ?_,
    (resolveCommit_absent_not_error _).2.2.1 _ rfl⟩
  have h := (resolveCommit_absent_not_error (Except.ok ⟨true, "  abc12\n"⟩)).2.1 _ rfl rfl
  rw [h, show rustTrim "  abc12\n" = "abc12" from by decide]

/-- C8: an `Index` (or `AutoIndex`) run starting from an empty
checkpoint that fetches successfully and resolves the first observed
head `h` completes with the checkpoint set to `h`, emits zero change
events, and computes no diff (the outcome is independent of the diff
oracle). -/
theorem first_head_checkpoint_no_events (message : IndexerActorMessage) (env : RunEnv)
    (now : Nat) (state : IndexerActorState) (h : String)
    (hck : state.last_commit_hash = none)
    (hfetch : fetch_repository env.fetchOut = .ok ())
    (hrev : get_commit_hash_from_head env.revOut = .ok (some h)) :
    handle message env now state =
      RunOutcome.completed { state with last_indexed := some now, last_commit_hash := some h }
        [] (rearms message) ∧
    ∀ d, handle message { env with diffOut := d } now state = handle message env now state := by
  have key : ∀ e : RunEnv, e.fetchOut = env.fetchOut → e.revOut = env.revOut →
      handle message e now state =
        RunOutcome.completed
          { state with last_indexed := some now, last_commit_hash := some h }
          [] (rearms message) := by
    intro e hfe hre
    simp [handle, hfe, hre, hfetch, hrev, hck]
  exact ⟨key env rfl rfl,
    fun d => (key { env with diffOut := d } rfl rfl).trans (key env rfl rfl).symm⟩

theorem first_head_checkpoint_no_events_witness :
    stFresh.last_commit_hash = none ∧
    fetch_repository envFirst.fetchOut = .ok () ∧
    get_commit_hash_from_head envFirst.revOut = .ok (some "h1") ∧
    handle IndexerActorMessage.Index envFirst 5 stFresh =
      RunOutcome.completed ⟨"u", "r", some 5, some "h1", 9⟩ [] false := by
  have hrev : get_commit_hash_from_head envFirst.revOut = .ok (some "h1") := by
    have h0 : get_commit_hash_from_head envFirst.revOut = .ok (some (rustTrim "h1\n")) := rfl
    rw [h0, show rustTrim "h1\n" = "h1" from by decide]
  exact ⟨rfl, rfl, hrev,
    (first_head_checkpoint_no_events IndexerActorMessage.Index envFirst 5 stFresh "h1"
      rfl rfl hrev).1⟩

/-- C9: after a completed run whose resolved head was `h`, a second
`Index` (or `AutoIndex`) run that fetches successfully and resolves the
same head `h` emits zero change events — the old-equals-new case is a
no-op apart from updating `last_indexed`. -/
theorem second_run_same_head_no_events (m1 m2 : IndexerActorMessage) (env1 env2 : RunEnv)
    (now1 now2 : Nat) (st0 s1 : IndexerActorState) (ev1 : List String) (r1 : Bool)
    (h : String)
    (h1 : handle m1 env1 now1 st0 = RunOutcome.completed s1 ev1 r1)
    (hrev1 : get_commit_hash_from_head env1.revOut = .ok (some h))
    (hfetch2 : fetch_repository env2.fetchOut = .ok ())
    (hrev2 : get_commit_hash_from_head env2.revOut = .ok (some h)) :
    handle m2 env2 now2 s1 =
      RunOutcome.completed { s1 with last_indexed := some now2, last_commit_hash := some h }
        [] (rearms m2) := by
  have hs := handle_completed_state m1 env1 now1 st0 s1 ev1 r1 (some h) h1 hrev1
  have hck : s1.last_commit_hash = some h := by rw [hs]
  simp [handle, hfetch2, hrev2, hck]

theorem second_run_same_head_no_events_witness :
    handle IndexerActorMessage.Index envFirst 5 stFresh =
      RunOutcome.completed ⟨"u", "r", some 5, some "h1", 9⟩ [] false ∧
    handle IndexerActorMessage.Index envFirst 6 (⟨"u", "r", some 5, some "h1", 9⟩ : IndexerActorState) =
      RunOutcome.completed ⟨"u", "r", some 6, some "h1", 9⟩ [] false := by
  have hrev : get_commit_hash_from_head envFirst.revOut = .ok (some "h1") := by
    have h0 : get_commit_hash_from_head envFirst.revOut = .ok (some (rustTrim "h1\n")) := rfl
    rw [h0, show rustTrim "h1\n" = "h1" from by decide]
  have hfirst : handle IndexerActorMessage.Index envFirst 5 stFresh =
      RunOutcome.completed ⟨"u", "r", some 5, some "h1", 9⟩ [] false := rfl
  exact ⟨hfirst,
    second_run_same_head_no_events IndexerActorMessage.Index IndexerActorMessage.Index
      envFirst envFirst 5 6 stFresh ⟨"u", "r", some 5, some "h1", 9⟩ [] false "h1"
      hfirst hrev rfl hrev⟩

theorem takeWhile_append_stop (p : Char → Bool) (l t : List Char) (y : Char)
    (hall : ∀ c ∈ l, p c = true) (hy : p y = false) :
    (l ++ y :: t).takeWhile p = l := by
  induction l with
  | nil => simp [List.takeWhile_cons, hy]
  | cons c cs ih =>
    simp [List.takeWhile_cons, hall c (List.mem_cons_self _ _),
      ih fun d hd => hall d (List.mem_cons_of_mem _ hd)]

theorem stripSuffix_eq_some (s sfx r : String) (h : stripSuffix s sfx = some r) :
    s = r ++ sfx := by
  unfold stripSuffix at h
  split at h
  · rename_i hcond
    injection h with h1
    subst h1
    apply String.ext
    rw [String.data_append]
    show s.data = s.data.take (s.data.length - sfx.data.length) ++ sfx.data
    nth_rewrite 2 [← hcond]
    exact (List.take_append_drop _ _).symm
  · cases h

theorem stripSuffix_append (r sfx : String) : stripSuffix (r ++ sfx) sfx = some r := by
  unfold stripSuffix
  rw [String.data_append]
  have hlen : (r.data ++ sfx.data).length - sfx.data.length = r.data.length := by
    rw [List.length_append]; omega
  rw [hlen, List.drop_left, List.take_left, if_pos rfl]

/-- C10: the directory name derived for the local mirror is the
substring after the last `'/'` (which is what `lastSegment` computes on
any URL of the form `a ++ "/" ++ b` with `b` slash-free) with a trailing
`".git"` removed; when the last segment does not end in `".git"`
(including URLs ending in `'/'`), `get_dir_name_from_url` falls back to
returning the entire URL unchanged. -/
theorem dir_name_from_url_spec (url : String) :
    (∀ a b : String, (∀ c ∈ b.data, c ≠ '/') → lastSegment (a ++ "/" ++ b) = b) ∧
    (∀ s : String, lastSegment url = s ++ ".git" → get_dir_name_from_url url = s) ∧
    ((¬ ∃ s : String, lastSegment url = s ++ ".git") → get_dir_name_from_url url = url) := by
  refine ⟨?_, ?_, ?_⟩
  · intro a b hb
    unfold lastSegment
    have hslash : ("/" : String).data = ['/'] := rfl
    have hdata : (a ++ "/" ++ b).data = a.data ++ '/' :: b.data := by
      rw [String.data_append, String.data_append, hslash, List.append_assoc]
      rfl
    rw [hdata, List.reverse_append]
    have hrev : ('/' :: b.data).reverse = b.data.reverse ++ ['/'] := by
      rw [List.reverse_cons]
    rw [hrev, List.append_assoc]
    have hstop : (b.data.reverse ++ '/' :: a.data.reverse).takeWhile
        (fun c => decide (c ≠ '/')) = b.data.reverse := by
      apply takeWhile_append_stop
      · intro c hc
        simpa using hb c (List.mem_reverse.mp hc)
      · simp
    show String.mk (((b.data.reverse ++ '/' :: a.data.reverse).takeWhile
        fun c => decide (c ≠ '/')).reverse) = b
    rw [hstop, List.reverse_reverse]
  · intro s hs
    unfold get_dir_name_from_url
    rw [hs, stripSuffix_append]
  · intro hno
    unfold get_dir_name_from_url
    cases hstrip : stripSuffix (lastSegment url) ".git" with
    | none => rfl
    | some r => exact absurd ⟨r, stripSuffix_eq_some _ _ _ hstrip⟩ hno

theorem dir_name_from_url_spec_witness :
    get_dir_name_from_url "https://github.com/rust-lang/crates.io-index.git"
      = "crates.io-index" ∧
    get_dir_name_from_url "foo/bar/" = "foo/bar/" ∧
    lastSegment ("https://github.com" ++ "/" ++ "x.git") = "x.git" := by
  refine ⟨(dir_name_from_url_spec _).2.1 "crates.io-index" (by decide), ?_,
    (dir_name_from_url_spec "x").1 "https://github.com" "x.git" (by decide)⟩
  apply (dir_name_from_url_spec "foo/bar/").2.2
  rintro ⟨s, hs⟩
  have hd : (lastSegment "foo/bar/").data = [] := by decide
  have hdata := congrArg String.data hs
  rw [hd, String.data_append] at hdata
  have hlen := congrArg List.length hdata
  rw [List.length_nil, List.length_append] at hlen
  have h4 : (".git" : String).data.length = 4 := rfl
  omega
